import Mathlib

set_option autoImplicit false

/-!
Shallow embedding of the `cli-wrapped` tool (src/shell.rs and src/main.rs).

The tool reads a shell history file and tallies command usage. File-system
interaction is modelled by an explicit environment `FS`; a Rust `PathBuf` is
modelled by the only attribute the program inspects, whether it renders as
UTF-8 text (`to_str`); a file is its list of lines, where a line that is not
valid UTF-8 is `none` (Rust's `BufRead::lines` yields `Err` for it).
Rust's `HashMap<String, usize>` is modelled as an association list with
distinct keys; `*freq.entry(k).or_insert(0) += 1` becomes `bump`.
-/

namespace CliWrapped

/-- `ShellError` from src/shell.rs. -/
inductive ShellError where
  | FindError
  | OpenError (path : String)
  | InvalidUTF8
  | ReadError
  | ParseError (path : String)
  | CountError
  deriving DecidableEq, Repr

/-- `ShellType` from src/shell.rs. -/
inductive ShellType where
  | Zsh
  | Bash
  deriving DecidableEq, Repr

/-- A Rust `PathBuf`: the program only ever asks whether it renders as UTF-8
text (`to_str`), so the model keeps exactly that attribute. -/
structure PathBuf where
  toStr : Option String
  deriving DecidableEq

/-- `PathBuf::join` with a UTF-8 file name: the result renders as text
exactly when the base path does. -/
def PathBuf.join (p : PathBuf) (name : String) : PathBuf :=
  ⟨p.toStr.map (fun s => s ++ "/" ++ name)⟩

/-- An opened file, as the sequence of its lines; `none` is a line that does
not decode as UTF-8 (`BufRead::lines` yields `Err` for such a line but still
consumes it, so it has a position in the sequence). -/
structure HFile where
  lines : List (Option String)

/-- The ambient file system: `dirs::home_dir()` and `File::open`. Opening
returns `none` when the OS-level open fails (missing file, permissions). -/
structure FS where
  homeDir : Option PathBuf
  openFile : PathBuf → Option HFile

/-- The fixed history file name per shell type (src/shell.rs, `find_history_path`). -/
def historyFileName : ShellType → String
  | .Zsh => ".zsh_history"
  | .Bash => ".bash_history"

/-- `ShellType::find_history_path`: home directory joined with the fixed
file name, or `FindError` when the home directory is undiscoverable. -/
def find_history_path (fs : FS) (st : ShellType) : Except ShellError PathBuf :=
  match fs.homeDir with
  | none => .error .FindError
  | some home => .ok (home.join (historyFileName st))

/-- `ShellType::open_history_file`: open the located path; on an open
failure, report `OpenError path` when the path renders as text and
`InvalidUTF8` otherwise. -/
def open_history_file (fs : FS) (st : ShellType) : Except ShellError HFile :=
  match find_history_path fs st with
  | .error e => .error e
  | .ok p =>
    match fs.openFile p with
    | some f => .ok f
    | none =>
      match p.toStr with
      | some s => .error (.OpenError s)
      | none => .error .InvalidUTF8

/-- `buf.lines().collect::<std::io::Result<Vec<String>>>()`: materialize all
lines, failing with `ReadError` when any line does not decode. -/
def collectLines : List (Option String) → Except ShellError (List String)
  | [] => .ok []
  | none :: _ => .error .ReadError
  | some s :: rest =>
    match collectLines rest with
    | .error e => .error e
    | .ok ls => .ok (s :: ls)

/-- Open the history file and materialize its lines (the shared prefix of
`command_frequency` and `invocation_frequency`). -/
def read_history (fs : FS) (st : ShellType) : Except ShellError (List String) :=
  match open_history_file fs st with
  | .error e => .error e
  | .ok f => collectLines f.lines

/-- Rust `str::split` with a character separator, on the character list:
split at every separator occurrence, keeping empty pieces (so the result is
never empty and consecutive separators produce empty pieces). -/
def splitP (p : Char → Bool) : List Char → List (List Char)
  | [] => [[]]
  | c :: cs =>
    match splitP p cs with
    | [] => [[]]
    | t :: ts => if p c then [] :: t :: ts else (c :: t) :: ts

/-- The line classifier inside `Shell::command_frequency`:
`line.split(' ').filter(|arg| !arg.contains('=') && !arg.is_empty()).nth(0)`. -/
def extract_command (line : String) : Option String :=
  (((splitP (fun c => c == ' ') line.data).filter
      (fun t => !(t.contains '=') && !t.isEmpty)).head?).map String.mk

/-- `*freq.entry(k).or_insert(0) += 1` on the association-list model of
`HashMap<String, usize>`: increment the entry of `k`, inserting it at 1. -/
def bump : List (String × Nat) → String → List (String × Nat)
  | [], k => [(k, 1)]
  | (k', v) :: rest, k =>
    if k' = k then (k', v + 1) :: rest else (k', v) :: bump rest k

/-- The loop body of `Shell::command_frequency`: classify the line and count
the extracted command; a line with no command is skipped (`else return`). -/
def command_step (freq : List (String × Nat)) (line : String) :
    List (String × Nat) :=
  match extract_command line with
  | none => freq
  | some command => bump freq command

/-- The tallying loop of `Shell::command_frequency`. -/
def command_freq_of_lines (lines : List String) : List (String × Nat) :=
  lines.foldl command_step []

/-- The loop body of `Shell::invocation_frequency`: count the raw line and
increment the running line count. -/
def invocation_step (fc : List (String × Nat) × Nat) (line : String) :
    List (String × Nat) × Nat :=
  (bump fc.1 line, fc.2 + 1)

/-- The tallying loop of `Shell::invocation_frequency`: count occurrences of
each raw line, also counting the lines processed. -/
def invocation_fold (lines : List String) : List (String × Nat) × Nat :=
  lines.foldl invocation_step ([], 0)

/-- The total of all counts held in a frequency table. -/
def valuesSum (m : List (String × Nat)) : Nat :=
  (m.map Prod.snd).sum

/-- `Shell` from src/shell.rs: the shell type and the cached count. -/
structure Shell where
  shell_type : ShellType
  invocation_count : Option Nat
  deriving DecidableEq, Repr

/-- `impl From<ShellType> for Shell`. -/
def Shell.ofShellType (st : ShellType) : Shell :=
  ⟨st, none⟩

/-- `Shell::commands_ran`: count the lines of the history file (decoding
failures included, as `lines().count()` counts `Err` items), cache the count,
and return it; `ok_or(CountError)` on the just-set field. -/
def commands_ran (fs : FS) (s : Shell) : Except ShellError Nat × Shell :=
  match find_history_path fs s.shell_type with
  | .error e => (.error e, s)
  | .ok p =>
    match fs.openFile p with
    | none =>
      match p.toStr with
      | some str => (.error (.OpenError str), s)
      | none => (.error .InvalidUTF8, s)
    | some f =>
      let s' := { s with invocation_count := some f.lines.length }
      match s'.invocation_count with
      | some n => (.ok n, s')
      | none => (.error .CountError, s')

/-- `Shell::command_frequency`: takes `&self`, so the session is returned
unchanged on every path. -/
def command_frequency (fs : FS) (s : Shell) :
    Except ShellError (List (String × Nat)) × Shell :=
  match read_history fs s.shell_type with
  | .error e => (.error e, s)
  | .ok ls => (.ok (command_freq_of_lines ls), s)

/-- `Shell::invocation_frequency`: tally raw lines and set
`invocation_count` to the number of lines processed. -/
def invocation_frequency (fs : FS) (s : Shell) :
    Except ShellError (List (String × Nat)) × Shell :=
  match read_history fs s.shell_type with
  | .error e => (.error e, s)
  | .ok ls =>
    let fc := invocation_fold ls
    (.ok fc.1, { s with invocation_count := some fc.2 })

/-- The sort order of `sort_by(|(_, b), (_, d)| d.cmp(b))`: descending count. -/
def countGE (p q : String × Nat) : Prop :=
  q.2 ≤ p.2

instance : DecidableRel countGE :=
  fun p q => Nat.decLe q.2 p.2

instance : IsTotal (String × Nat) countGE :=
  ⟨fun a b => Nat.le_total b.2 a.2⟩

instance : IsTrans (String × Nat) countGE :=
  ⟨fun _ _ _ h1 h2 => Nat.le_trans h2 h1⟩

/-- Sort the entries by descending count (tie order is unspecified in the
source, so any sort by `countGE` is a faithful model). -/
def sortCountDesc (m : List (String × Nat)) : List (String × Nat) :=
  List.insertionSort countGE m

/-- The ranker inside `Shell::top_commands_and_invocations`, before keys are
projected out: sort by descending count and `truncate(5)`. -/
def rankPairs (m : List (String × Nat)) : List (String × Nat) :=
  (sortCountDesc m).take 5

/-- The ranker: top-5 keys by descending count. -/
def rank (m : List (String × Nat)) : List String :=
  (rankPairs m).map Prod.fst

/-- `Shell::top_commands_and_invocations`. -/
def top_commands_and_invocations (fs : FS) (s : Shell) :
    Except ShellError (List String × List String) × Shell :=
  match invocation_frequency fs s with
  | (.error e, s') => (.error e, s')
  | (.ok ifreq, s') =>
    match command_frequency fs s' with
    | (.error e, s'') => (.error e, s'')
    | (.ok cfreq, s'') => (.ok (rank cfreq, rank ifreq), s'')

/-- Observable outcome of a run of `main` (src/main.rs). -/
inductive MainOutcome where
  | success (freq : List (String × Nat)) (total : Nat)
  | failure (e : ShellError)
  | panicked
  deriving Repr

/-- `main` from src/main.rs: build the session, compute `command_frequency`,
print it, then print `shell.command_count.unwrap()`. The source names a field
`command_count` that `Shell` does not declare; the only count field the
struct has is `invocation_count`, which is the reading modelled here.
`unwrap()` of `None` is `panicked`; a propagated `ShellError` is `failure`
(nonzero exit); `success freq total` stands for printing the mapping and the
total and exiting 0. -/
def mainRun (fs : FS) (st : ShellType) : MainOutcome :=
  let shell := Shell.ofShellType st
  match command_frequency fs shell with
  | (.error e, _) => .failure e
  | (.ok freq, shell') =>
    match shell'.invocation_count with
    | some n => .success freq n
    | none => .panicked

/-- Classifier following the claim's words literally: split the line on
whitespace (any whitespace character), discard empty tokens and tokens
containing a spec character, take the first remaining token. -/
def spec_command_ws (line : String) : Option String :=
  (((splitP Char.isWhitespace line.data).filter
      (fun t => !(t.contains '=') && !t.isEmpty)).head?).map String.mk

/-- Classifier following the amended claim's words: split the line on the
space character, written over the library's `List.splitOnP`. -/
def spec_command_space (line : String) : Option String :=
  (((line.data.splitOnP (fun c => c == ' ')).filter
      (fun t => !(t.contains '=') && !t.isEmpty)).head?).map String.mk

/-! Concrete inputs used by the scenario claim and by witnesses. -/

/-- The spec's scenario history lines. -/
def demoLines : List String :=
  ["echo hi", "echo hi", "FOO=1 echo bye"]

def demoFile : HFile :=
  ⟨demoLines.map some⟩

def demoHome : PathBuf :=
  ⟨some "/home/user"⟩

/-- A file system where the history file exists and holds `demoLines`. -/
def demoFS : FS :=
  ⟨some demoHome, fun _ => some demoFile⟩

/-- A file system with a home directory but no openable file. -/
def bareFS : FS :=
  ⟨some demoHome, fun _ => none⟩

/-- A fresh bash session. -/
def shell0 : Shell :=
  Shell.ofShellType .Bash

/-- A small concrete frequency table. -/
def demoFreq : List (String × Nat) :=
  [("ls", 3), ("cd", 2)]

/-! ### Properties of the splitter and the classifier -/

theorem splitP_ne_nil (p : Char → Bool) (l : List Char) : splitP p l ≠ [] := by
  cases l with
  | nil => simp [splitP]
  | cons c cs =>
    rw [splitP]
    cases h : splitP p cs with
    | nil => simp
    | cons t ts => by_cases hpc : p c <;> simp [hpc]

theorem splitP_eq_splitOnP (p : Char → Bool) (l : List Char) :
    splitP p l = l.splitOnP p := by
  induction l with
  | nil => rw [splitP, List.splitOnP_nil]
  | cons c cs ih =>
    rw [List.splitOnP_cons, ← ih, splitP]
    cases h : splitP p cs with
    | nil => exact absurd h (splitP_ne_nil p cs)
    | cons t ts => by_cases hpc : p c <;> simp [hpc]

theorem sep_eq_false_of_mem_splitP (p : Char → Bool) (l : List Char) :
    ∀ t ∈ splitP p l, ∀ c ∈ t, p c = false := by
  induction l with
  | nil =>
    intro t ht
    rw [splitP] at ht
    rcases List.mem_singleton.mp ht with rfl
    intro c hc
    exact absurd hc (List.not_mem_nil c)
  | cons c cs ih =>
    intro t ht
    rw [splitP] at ht
    cases h : splitP p cs with
    | nil => exact absurd h (splitP_ne_nil p cs)
    | cons t' ts =>
      rw [h] at ht
      dsimp only at ht
      cases hpc : p c with
      | true =>
        rw [if_pos hpc] at ht
        rcases List.mem_cons.mp ht with rfl | ht'
        · intro x hx; exact absurd hx (List.not_mem_nil x)
        · exact ih t (h ▸ ht')
      | false =>
        rw [if_neg (by simp [hpc])] at ht
        rcases List.mem_cons.mp ht with rfl | ht'
        · intro x hx
          rcases List.mem_cons.mp hx with rfl | hx'
          · exact hpc
          · exact ih t' (h ▸ List.mem_cons_self t' ts) x hx'
        · exact ih t (h ▸ List.mem_cons_of_mem t' ht')

theorem extract_command_eq_some {line com : String}
    (h : extract_command line = some com) :
    com.data ≠ [] ∧ (∀ c ∈ com.data, ¬ c = ' ') ∧ '=' ∉ com.data := by
  rw [extract_command] at h
  rcases Option.map_eq_some'.mp h with ⟨t, hhead, hmk⟩
  have hdata : com.data = t := by rw [← hmk]
  cases hfil : (splitP (fun c => c == ' ') line.data).filter
      (fun t => !(t.contains '=') && !t.isEmpty) with
  | nil => rw [hfil] at hhead; exact absurd hhead (by simp)
  | cons x xs =>
    rw [hfil] at hhead
    have hx : x = t := by simpa using hhead
    rw [hx] at hfil
    have hmem : t ∈ (splitP (fun c => c == ' ') line.data).filter
        (fun t => !(t.contains '=') && !t.isEmpty) := by
      rw [hfil]; exact List.mem_cons_self t xs
    have hsplit := List.mem_filter.mp hmem
    have hpred := hsplit.2
    simp only [Bool.and_eq_true, Bool.not_eq_true'] at hpred
    refine ⟨?_, ?_, ?_⟩
    · rw [hdata]
      intro hnil
      have : t.isEmpty = true := by rw [hnil]; rfl
      rw [this] at hpred
      exact Bool.true_eq_false.mp hpred.2
    · rw [hdata]
      intro c hc
      have := sep_eq_false_of_mem_splitP (fun c => c == ' ') line.data t
        hsplit.1 c hc
      simpa using this
    · rw [hdata]
      intro hc
      have : t.contains '=' = true := by simpa using hc
      rw [this] at hpred
      exact Bool.true_eq_false.mp hpred.1

/-! ### Properties of the frequency tables -/

theorem bump_exists_mem_iff (m : List (String × Nat)) (k q : String) :
    (∃ v, (q, v) ∈ bump m k) ↔ (∃ v, (q, v) ∈ m) ∨ q = k := by
  induction m with
  | nil => simp [bump]
  | cons a rest ih =>
    obtain ⟨k', v⟩ := a
    rw [bump]
    by_cases hk : k' = k
    · subst hk
      rw [if_pos rfl]
      constructor
      · rintro ⟨w, hw⟩
        rcases List.mem_cons.mp hw with heq | hmem
        · exact Or.inr (congrArg Prod.fst heq)
        · exact Or.inl ⟨w, List.mem_cons_of_mem _ hmem⟩
      · rintro (⟨w, hw⟩ | rfl)
        · rcases List.mem_cons.mp hw with heq | hmem
          · exact ⟨v + 1, by
              rw [show q = k' from congrArg Prod.fst heq]
              exact List.mem_cons_self _ _⟩
          · exact ⟨w, List.mem_cons_of_mem _ hmem⟩
        · exact ⟨v + 1, List.mem_cons_self _ _⟩
    · rw [if_neg hk]
      constructor
      · rintro ⟨w, hw⟩
        rcases List.mem_cons.mp hw with heq | hmem
        · exact Or.inl ⟨w, List.mem_cons.mpr (Or.inl heq)⟩
        · rcases ih.mp ⟨w, hmem⟩ with ⟨u, hu⟩ | hq
          · exact Or.inl ⟨u, List.mem_cons_of_mem _ hu⟩
          · exact Or.inr hq
      · rintro (⟨w, hw⟩ | hq)
        · rcases List.mem_cons.mp hw with heq | hmem
          · exact ⟨w, List.mem_cons.mpr (Or.inl heq)⟩
          · rcases ih.mpr (Or.inl ⟨w, hmem⟩) with ⟨u, hu⟩
            exact ⟨u, List.mem_cons_of_mem _ hu⟩
        · rcases ih.mpr (Or.inr hq) with ⟨u, hu⟩
          exact ⟨u, List.mem_cons_of_mem _ hu⟩

theorem bump_val_pos (m : List (String × Nat)) (k : String)
    (hm : ∀ p ∈ m, 1 ≤ p.2) : ∀ p ∈ bump m k, 1 ≤ p.2 := by
  induction m with
  | nil =>
    intro p hp
    rw [bump] at hp
    rcases List.mem_singleton.mp hp with rfl
    exact Nat.le_refl 1
  | cons a rest ih =>
    obtain ⟨k', v⟩ := a
    intro p hp
    rw [bump] at hp
    by_cases hk : k' = k
    · rw [if_pos hk] at hp
      rcases List.mem_cons.mp hp with rfl | hp'
      · exact Nat.le_add_left 1 v
      · exact hm p (List.mem_cons_of_mem _ hp')
    · rw [if_neg hk] at hp
      rcases List.mem_cons.mp hp with rfl | hp'
      · exact hm _ (List.mem_cons_self _ _)
      · exact ih (fun q hq => hm q (List.mem_cons_of_mem _ hq)) p hp'

theorem valuesSum_bump (m : List (String × Nat)) (k : String) :
    valuesSum (bump m k) = valuesSum m + 1 := by
  induction m with
  | nil => rfl
  | cons a rest ih =>
    obtain ⟨k', v⟩ := a
    rw [bump]
    by_cases hk : k' = k
    · rw [if_pos hk]
      simp only [valuesSum, List.map_cons, List.sum_cons]
      omega
    · rw [if_neg hk]
      simp only [valuesSum, List.map_cons, List.sum_cons] at ih ⊢
      omega

theorem command_fold_keys (lines : List String) :
    ∀ (m : List (String × Nat)) (k : String),
      (∃ v, (k, v) ∈ lines.foldl command_step m) ↔
        (∃ v, (k, v) ∈ m) ∨ ∃ l ∈ lines, extract_command l = some k := by
  induction lines with
  | nil => simp
  | cons line rest ih =>
    intro m k
    rw [List.foldl_cons, ih]
    cases hx : extract_command line with
    | none =>
      simp only [command_step, hx, List.mem_cons]
      constructor
      · rintro (hm | hr)
        · exact Or.inl hm
        · exact Or.inr (by rcases hr with ⟨l, hl, he⟩; exact ⟨l, Or.inr hl, he⟩)
      · rintro (hm | ⟨l, rfl | hl, he⟩)
        · exact Or.inl hm
        · rw [hx] at he; cases he
        · exact Or.inr ⟨l, hl, he⟩
    | some c =>
      simp only [command_step, hx, bump_exists_mem_iff, List.mem_cons]
      constructor
      · rintro ((hm | rfl) | hr)
        · exact Or.inl hm
        · exact Or.inr ⟨line, Or.inl rfl, hx⟩
        · exact Or.inr (by rcases hr with ⟨l, hl, he⟩; exact ⟨l, Or.inr hl, he⟩)
      · rintro (hm | ⟨l, rfl | hl, he⟩)
        · exact Or.inl (Or.inl hm)
        · rw [hx] at he
          exact Or.inl (Or.inr (Option.some.injEq _ _ ▸ he).symm)
        · exact Or.inr ⟨l, hl, he⟩

theorem command_fold_pos (lines : List String) :
    ∀ m, (∀ p ∈ m, 1 ≤ p.2) →
      ∀ p ∈ lines.foldl command_step m, 1 ≤ p.2 := by
  induction lines with
  | nil => intro m hm; simpa using hm
  | cons line rest ih =>
    intro m hm
    rw [List.foldl_cons]
    apply ih
    cases hx : extract_command line with
    | none => rw [command_step, hx]; exact hm
    | some c => rw [command_step, hx]; exact bump_val_pos m c hm

theorem command_fold_sum (lines : List String) :
    ∀ m, valuesSum (lines.foldl command_step m) =
      valuesSum m + lines.countP (fun l => (extract_command l).isSome) := by
  induction lines with
  | nil => simp
  | cons line rest ih =>
    intro m
    rw [List.foldl_cons, ih, List.countP_cons]
    cases hx : extract_command line with
    | none => simp [command_step, hx]
    | some c =>
      simp [command_step, hx, valuesSum_bump]
      omega

theorem invocation_fold_count (lines : List String) :
    ∀ fc : List (String × Nat) × Nat,
      (lines.foldl invocation_step fc).2 = fc.2 + lines.length := by
  induction lines with
  | nil => intro fc; simp
  | cons line rest ih =>
    intro fc
    rw [List.foldl_cons, ih]
    simp only [invocation_step, List.length_cons]
    omega

/-! ### The session is threaded unchanged where the receiver is immutable -/

theorem command_frequency_snd (fs : FS) (s : Shell) :
    (command_frequency fs s).2 = s := by
  rw [command_frequency]
  cases read_history fs s.shell_type <;> rfl

/-! ### Claim theorems -/

/-- C1: for the history line sequence `["echo hi", "echo hi", "FOO=1 echo bye"]`,
`invocation_frequency` returns the mapping `{"echo hi" 2, "FOO=1 echo bye" 1}`
and `command_frequency` returns the mapping `{"echo" 3}`. -/
theorem C1_scenario_frequencies :
    (invocation_frequency demoFS shell0).1 =
      .ok [("echo hi", 2), ("FOO=1 echo bye", 1)] ∧
    (command_frequency demoFS shell0).1 = .ok [("echo", 3)] :=
  ⟨rfl, rfl⟩

/-- C2, counterexample: the code splits on the space character only, not on
whitespace; on the line containing a tab, the classifier keeps the tab inside
the extracted command while whitespace-splitting would cut at it. -/
theorem C2_whitespace_counterexample :
    extract_command "a\tb" = some "a\tb" ∧
    spec_command_ws "a\tb" = some "a" ∧
    extract_command "a\tb" ≠ spec_command_ws "a\tb" := by
  exact ⟨by decide, by decide, by decide⟩

/-- C2, amended: for every line, the command extracted by the classifier is
obtained by splitting the line on the space character into tokens, discarding
empty tokens and tokens containing a `=`, and taking the first remaining
token; a line yielding no token contributes to no command bucket (the bucket
keys are exactly the commands extracted from some line). -/
theorem C2_space_classifier :
    (∀ line, extract_command line = spec_command_space line) ∧
    (∀ (lines : List String) (k : String),
      (∃ v, (k, v) ∈ command_freq_of_lines lines) ↔
        ∃ l ∈ lines, extract_command l = some k) := by
  constructor
  · intro line
    rw [extract_command, spec_command_space, splitP_eq_splitOnP]
  · intro lines k
    rw [command_freq_of_lines, command_fold_keys]
    simp

/-- C3: after `invocation_frequency` succeeds on a history that reads as the
line sequence `ls`, the cached invocation count equals the number of lines. -/
theorem C3_count_eq_line_count (fs : FS) (s : Shell) (ls : List String)
    (h : read_history fs s.shell_type = .ok ls) :
    ((invocation_frequency fs s).2).invocation_count = some ls.length := by
  rw [invocation_frequency, h]
  simp [invocation_fold, invocation_fold_count]

theorem C3_count_eq_line_count_witness :
    read_history demoFS shell0.shell_type = .ok demoLines ∧
    ((invocation_frequency demoFS shell0).2).invocation_count = some 3 :=
  ⟨rfl, C3_count_eq_line_count demoFS shell0 demoLines rfl⟩

/-- C4: the counts in the table built by `command_frequency` sum to the
number of lines from which the classifier extracted a command token. -/
theorem C4_sum_counts (lines : List String) :
    valuesSum (command_freq_of_lines lines) =
      lines.countP (fun l => (extract_command l).isSome) := by
  rw [command_freq_of_lines, command_fold_sum]
  simp [valuesSum]

/-- C5: `invocation_frequency` updates the session's cached invocation count
as a side effect (and touches nothing else), while `command_frequency` leaves
every field of the session unchanged. -/
theorem C5_side_effect_asymmetry (fs : FS) (s : Shell) :
    ((command_frequency fs s).2 = s) ∧
    (∀ ls, read_history fs s.shell_type = .ok ls →
      (invocation_frequency fs s).2 =
        { s with invocation_count := some ls.length }) := by
  refine ⟨command_frequency_snd fs s, ?_⟩
  intro ls h
  rw [invocation_frequency, h]
  simp [invocation_fold, invocation_fold_count]

theorem C5_side_effect_asymmetry_witness :
    read_history demoFS shell0.shell_type = .ok demoLines ∧
    ((command_frequency demoFS shell0).2 = shell0 ∧
      (invocation_frequency demoFS shell0).2 =
        { shell0 with invocation_count := some 3 }) :=
  ⟨rfl, (C5_side_effect_asymmetry demoFS shell0).1,
    (C5_side_effect_asymmetry demoFS shell0).2 demoLines rfl⟩

/-- C6: the ranker with N = 5, applied to a frequency mapping (an association
list with distinct keys), returns min 5 (number of keys) keys, the counts of
the returned entries are non-increasing, and when at most 5 keys exist the
returned keys are all the keys. -/
theorem C6_ranker (m : List (String × Nat))
    (_hm : (m.map Prod.fst).Nodup) :
    (rank m).length = min 5 m.length ∧
    ((rankPairs m).map Prod.snd).Sorted (fun a b => b ≤ a) ∧
    (m.length ≤ 5 → (rank m).Perm (m.map Prod.fst)) := by
  refine ⟨?_, ?_, ?_⟩
  · rw [rank, rankPairs, List.length_map, List.length_take, sortCountDesc,
      List.length_insertionSort]
  · have h1 : (sortCountDesc m).Pairwise countGE :=
      List.sorted_insertionSort countGE m
    have h2 : (rankPairs m).Pairwise countGE :=
      h1.sublist (List.take_sublist 5 _)
    exact h2.map Prod.snd (fun a b hab => hab)
  · intro h5
    have hall : rankPairs m = sortCountDesc m := by
      apply List.take_of_length_le
      rw [sortCountDesc, List.length_insertionSort]
      exact h5
    rw [rank, hall]
    exact (List.perm_insertionSort countGE m).map Prod.fst

theorem C6_ranker_witness :
    (demoFreq.map Prod.fst).Nodup ∧
    ((rank demoFreq).length = min 5 demoFreq.length ∧
      ((rankPairs demoFreq).map Prod.snd).Sorted (fun a b => b ≤ a) ∧
      (demoFreq.length ≤ 5 → (rank demoFreq).Perm (demoFreq.map Prod.fst))) :=
  ⟨by decide, C6_ranker demoFreq (by decide)⟩

/-- C7: with a discoverable home directory, opening the history file fails
with `OpenError` carrying the path exactly when the open fails and the path
renders as text, and with `InvalidUTF8` exactly when the open fails and the
path does not render as text; so a nonexistent file at a text-representable
path gives the open-failure kind and no other kind. -/
theorem C7_open_error_kinds (fs : FS) (st : ShellType) (home : PathBuf)
    (hh : fs.homeDir = some home) :
    (∀ s, open_history_file fs st = .error (.OpenError s) ↔
      (fs.openFile (home.join (historyFileName st)) = none ∧
        (home.join (historyFileName st)).toStr = some s)) ∧
    (open_history_file fs st = .error .InvalidUTF8 ↔
      (fs.openFile (home.join (historyFileName st)) = none ∧
        (home.join (historyFileName st)).toStr = none)) := by
  have hfind : find_history_path fs st =
      .ok (home.join (historyFileName st)) := by
    rw [find_history_path, hh]
  constructor
  · intro s
    rw [open_history_file, hfind]
    cases hopen : fs.openFile (home.join (historyFileName st)) with
    | some f => simp [hopen]
    | none =>
      cases hstr : (home.join (historyFileName st)).toStr with
      | none => simp [hopen, hstr]
      | some s' => simp [hopen, hstr, eq_comm]
  · rw [open_history_file, hfind]
    cases hopen : fs.openFile (home.join (historyFileName st)) with
    | some f => simp [hopen]
    | none =>
      cases hstr : (home.join (historyFileName st)).toStr with
      | none => simp [hopen, hstr]
      | some s' => simp [hopen, hstr]

theorem C7_open_error_kinds_witness :
    bareFS.homeDir = some demoHome ∧
    (open_history_file bareFS .Bash =
        .error (.OpenError "/home/user/.bash_history") ↔
      (bareFS.openFile (demoHome.join (historyFileName .Bash)) = none ∧
        (demoHome.join (historyFileName .Bash)).toStr =
          some "/home/user/.bash_history")) :=
  ⟨rfl, (C7_open_error_kinds bareFS .Bash demoHome rfl).1
    "/home/user/.bash_history"⟩

/-- C8: no run of `main` can succeed, because `command_frequency` never sets
the session's count field (and the field `main` reads, `command_count`, does
not even exist on `Shell`), so the `unwrap` of the count panics on every run
that gets past `command_frequency`; at the concrete readable history the run
panics instead of printing the mapping and the total and exiting 0. -/
theorem C8_main_no_successful_run :
    mainRun demoFS .Bash = .panicked ∧
    ∀ (fs : FS) (st : ShellType) (freq : List (String × Nat)) (total : Nat),
      mainRun fs st ≠ .success freq total := by
  refine ⟨rfl, ?_⟩
  intro fs st freq total
  rw [mainRun]
  cases hcf : command_frequency fs (Shell.ofShellType st) with
  | mk r s' =>
    have hs : Shell.ofShellType st = s' :=
      (command_frequency_snd fs (Shell.ofShellType st)).symm.trans
        (congrArg Prod.snd hcf)
    cases r with
    | error e => simp
    | ok freq' =>
      rw [← hs]
      simp [Shell.ofShellType]

/-- C9: when `invocation_frequency` or `commands_ran` returns an error, the
session's `invocation_count` field is unchanged. -/
theorem C9_error_leaves_count (fs : FS) (s : Shell) (e : ShellError) :
    ((invocation_frequency fs s).1 = .error e →
      ((invocation_frequency fs s).2).invocation_count =
        s.invocation_count) ∧
    ((commands_ran fs s).1 = .error e →
      ((commands_ran fs s).2).invocation_count = s.invocation_count) := by
  constructor
  · cases hr : read_history fs s.shell_type with
    | error e' => intro _; rw [invocation_frequency, hr]
    | ok ls => intro h; rw [invocation_frequency, hr] at h; simp at h
  · cases hfind : find_history_path fs s.shell_type with
    | error e' => intro _; rw [commands_ran, hfind]
    | ok p =>
      cases hopen : fs.openFile p with
      | none =>
        cases hstr : p.toStr with
        | some str =>
          intro _
          rw [commands_ran, hfind]
          simp [hopen, hstr]
        | none =>
          intro _
          rw [commands_ran, hfind]
          simp [hopen, hstr]
      | some f =>
        intro h
        rw [commands_ran, hfind] at h
        simp [hopen] at h

theorem C9_error_leaves_count_witness :
    (invocation_frequency bareFS shell0).1 =
      .error (.OpenError "/home/user/.bash_history") ∧
    ((invocation_frequency bareFS shell0).2).invocation_count =
      shell0.invocation_count ∧
    (commands_ran bareFS shell0).1 =
      .error (.OpenError "/home/user/.bash_history") ∧
    ((commands_ran bareFS shell0).2).invocation_count =
      shell0.invocation_count :=
  ⟨rfl,
    (C9_error_leaves_count bareFS shell0
      (.OpenError "/home/user/.bash_history")).1 rfl,
    rfl,
    (C9_error_leaves_count bareFS shell0
      (.OpenError "/home/user/.bash_history")).2 rfl⟩

/-- C10: every key in the table built by `command_frequency` is a non-empty
string containing neither a space nor `=`, and every count is at least 1. -/
theorem C10_command_key_shape (lines : List String) (k : String) (v : Nat)
    (h : (k, v) ∈ command_freq_of_lines lines) :
    k ≠ "" ∧ ' ' ∉ k.data ∧ '=' ∉ k.data ∧ 1 ≤ v := by
  have hkey := (command_fold_keys lines [] k).mp ⟨v, h⟩
  rcases hkey with ⟨w, hw⟩ | ⟨l, _, hx⟩
  · exact absurd hw (List.not_mem_nil _)
  · obtain ⟨hne, hsp, heq⟩ := extract_command_eq_some hx
    refine ⟨?_, ?_, heq, ?_⟩
    · intro h0
      exact hne (by rw [h0])
    · intro hmem
      exact hsp ' ' hmem rfl
    · exact command_fold_pos lines []
        (fun p hp => absurd hp (List.not_mem_nil p)) (k, v) h

theorem C10_command_key_shape_witness :
    ("echo", 1) ∈ command_freq_of_lines ["echo hi"] ∧
    ("echo" ≠ "" ∧ ' ' ∉ ("echo" : String).data ∧
      '=' ∉ ("echo" : String).data ∧ 1 ≤ 1) :=
  ⟨by decide, C10_command_key_shape ["echo hi"] "echo" 1 (by decide)⟩

end CliWrapped
